import Mathlib

/-
Verification of the narup/gconfig configuration library (gconfig.go) against its
natural-language specification.

The embedding below translates the Go source into Lean:
  * A Go `map[string]interface{}` holding only string values is modelled as an
    association list `List (String × String)`; `nil` interface lookups are `none`.
  * `configFile` / `GConfig` are translated field by field; `fileInfo` is the file
    name wrapped in `Option` (Go `os.FileInfo` may be the nil interface).
  * The process environment is a parameter `env : String → Option String`
    (`os.Getenv` of an unset variable is the empty string, hence `Option.getD ""`).
  * `os.ExpandEnv` (stdlib, external to the repository) is modelled by `expandEnv`
    below, following the source of `os.Expand` / `getShellName` with `os.Getenv` as
    the mapping; recursion is driven by a fuel argument that is always sufficient
    (every step consumes at least one character).
  * A Go runtime panic (the unchecked type assertion `v.(string)` in
    `getStringValue` applied to a nil interface) is modelled as `none`.
  * `Load`'s I/O is abstracted: the directory listing is an input
    `Option (List DirEntry)` (`none` = `ioutil.ReadDir` error; a `DirEntry` whose
    `content` is `none` is a file `os.Open` fails on); the effective profile string
    (result of `loadProfile`) and the pre-call value of the `Gcg` singleton are
    inputs as well.
  * `strconv.Atoi` is modelled exactly (sign, digits, 64-bit clamping on range
    error, 0 on syntax error); `strconv.ParseBool` exactly; for
    `strconv.ParseFloat(s, 32)` the accepted syntax is modelled exactly
    (`floatSyntaxOk`) while the numeric value of an accepted literal is kept
    abstract (`FloatVal.parsed`), since only the zero-on-parse-failure behaviour is
    at stake.
-/

/-! ## Characters and Go string helpers -/

/-- Go `isShellSpecialVar` from os/env.go. -/
def isShellSpecialVar (c : Char) : Bool :=
  c == '*' || c == '#' || c == '$' || c == '@' || c == '!' || c == '?' || c == '-' ||
    c.isDigit

/-- Go `isAlphaNum` from os/env.go: underscore, digits, ASCII letters. -/
def isAlphaNum (c : Char) : Bool :=
  c == '_' || c.isDigit || c.isLower || c.isUpper

/-- Lookup of an environment variable the way `os.Getenv` behaves inside
`os.Expand`: an unset variable yields the empty string. -/
def envL (env : String → Option String) (n : List Char) : List Char :=
  ((env (String.mk n)).getD "").toList

/-- Scan to the first closing brace, as in the brace arm of Go `getShellName`:
returns the name before the first brace and the characters after it, or `none`
when the string has no closing brace. -/
def spanToBrace : List Char → Option (List Char × List Char)
  | [] => none
  | c :: rest =>
    if c = '}' then some ([], rest)
    else
      match spanToBrace rest with
      | none => none
      | some (nm, after) => some (c :: nm, after)

/-- Go `os.Expand` with mapping `os.Getenv`, over a character list.  The `Nat`
fuel only drives the recursion; every step consumes at least one character, so
fuel `length + 1` (as supplied by `expandChars`) never runs out. -/
def expandAux (env : String → Option String) : Nat → List Char → List Char
  | 0, _ => []
  | _ + 1, [] => []
  | f + 1, c :: rest =>
    if c = '$' then
      match rest with
      | [] => ['$']
      | d :: rest2 =>
        if d = '{' then
          match spanToBrace rest2 with
          | some (name, after) =>
            if name.isEmpty then expandAux env f after
            else envL env name ++ expandAux env f after
          | none => expandAux env f rest2
        else if isShellSpecialVar d then
          envL env [d] ++ expandAux env f rest2
        else if isAlphaNum d then
          envL env ((d :: rest2).takeWhile isAlphaNum) ++
            expandAux env f ((d :: rest2).dropWhile isAlphaNum)
        else
          '$' :: d :: expandAux env f rest2
    else
      c :: expandAux env f rest

/-- `os.Expand`/`os.ExpandEnv` on a character list. -/
def expandChars (env : String → Option String) (cs : List Char) : List Char :=
  expandAux env (cs.length + 1) cs

/-- Model of `os.ExpandEnv`. -/
def expandEnv (env : String → Option String) (str : String) : String :=
  String.mk (expandChars env str.toList)

/-! ## Association-list operations standing in for the Go map -/

/-- Lookup in the association list modelling `map[string]interface{}`. -/
def mapGet : List (String × String) → String → Option String
  | [], _ => none
  | (k2, v) :: rest, k => if k2 = k then some v else mapGet rest k

/-- Map assignment `m[k] = v`: the new binding shadows and replaces any old one. -/
def mapInsert (m : List (String × String)) (k v : String) : List (String × String) :=
  (k, v) :: m.filter (fun p => !(p.1 == k))

/-- Go `strings.Trim(s, " ")` on a character list: remove leading and trailing
space characters (and only spaces). -/
def trimSpL (cs : List Char) : List Char :=
  ((cs.dropWhile (fun c => c == ' ')).reverse.dropWhile (fun c => c == ' ')).reverse

/-- Go `strings.Trim(s, " ")`. -/
def trimSp (str : String) : String :=
  String.mk (trimSpL str.toList)

/-- Go `strings.Contains` over character lists. -/
def containsSub : List Char → List Char → Bool
  | [], n => n.isEmpty
  | c :: tl, n => List.isPrefixOf n (c :: tl) || containsSub tl n

/-- Go `strings.Contains`. -/
def strContains (hay needle : String) : Bool :=
  containsSub hay.toList needle.toList

/-! ## configFile -/

/-- `PropertiesExtension` / `StandardPropFileName` constants from gconfig.go. -/
def StandardPropFileName : String := "application.properties"

/-- Go `configFile`: the origin file (its name; `none` for the nil interface) and
the parsed key/value mapping. -/
structure ConfigFile where
  fileInfo : Option String
  configs : List (String × String)
  deriving DecidableEq, Repr

/-- Go `(*configFile).addProperty`: keys and values are trimmed of surrounding
spaces before insertion. -/
def ConfigFile.addProperty (cf : ConfigFile) (key value : String) : ConfigFile :=
  { cf with configs := mapInsert cf.configs (trimSp key) (trimSp value) }

/-- Go `configFile.isDefault`. -/
def ConfigFile.isDefault (cf : ConfigFile) : Bool :=
  match cf.fileInfo with
  | some nm => nm = StandardPropFileName
  | none => false

/-! ## GConfig and lookups -/

/-- Go `GConfig`. -/
structure GConfig where
  Profile : String
  profileConfig : ConfigFile
  defaultConfig : ConfigFile
  deriving DecidableEq, Repr

/-- The guard `c.profileConfig.fileInfo != nil && strings.Contains(name, c.Profile)`
of `getValue`. -/
def GConfig.profileActive (c : GConfig) : Bool :=
  match c.profileConfig.fileInfo with
  | some nm => strContains nm c.Profile
  | none => false

/-- Go `GConfig.getValue`: start from the default layer, override from the profile
layer when it is present and its file name contains the profile, and fall back to
the default layer when the override is absent. -/
def GConfig.getValue (c : GConfig) (key : String) : Option String :=
  let v := mapGet c.defaultConfig.configs key
  let v := if c.profileActive then mapGet c.profileConfig.configs key else v
  match v with
  | none => mapGet c.defaultConfig.configs key
  | some x => some x

/-- `strings.HasPrefix(v, minBrace) && strings.HasSuffix(v, closeBrace)` guard of
`getStringValue`, i.e. the value is syntactically wrapped as a placeholder. -/
def isWrapped (v : String) : Bool :=
  List.isPrefixOf ['$', '{'] v.toList && List.isSuffixOf ['}'] v.toList

/-- Go `GConfig.getStringValue`.  The unchecked type assertion `v.(string)`
panics when `getValue` yields the nil interface; the panic is modelled as
`none`. -/
def GConfig.getStringValue (c : GConfig) (env : String → Option String)
    (key : String) : Option String :=
  match c.getValue key with
  | none => none
  | some strV => if isWrapped strV then some (expandEnv env strV) else some strV

/-- Go `GConfig.GetString`. -/
def GConfig.GetString (c : GConfig) (env : String → Option String)
    (key : String) : Option String :=
  c.getStringValue env key

/-- Go `GConfig.Exists`: true iff the raw resolved value is non-nil. -/
def GConfig.Exists (c : GConfig) (key : String) : Bool :=
  match c.getValue key with
  | some _ => true
  | none => false

/-! ## strconv models -/

/-- Strip a leading sign, as `strconv.ParseInt` does; the flag is true for a
minus sign. -/
def stripSign : List Char → Bool × List Char
  | '+' :: r => (false, r)
  | '-' :: r => (true, r)
  | r => (false, r)

/-- `strconv.Atoi` succeeds (no syntax error) iff after the optional sign there
is a nonempty run of decimal digits and nothing else. -/
def atoiSyntaxOk (str : String) : Bool :=
  let ds := (stripSign str.toList).2
  !ds.isEmpty && ds.all Char.isDigit

/-- The `int` that `i, _ := strconv.Atoi(s)` leaves in `i`: 0 on a syntax error,
the clamped 64-bit bound on a range error, the exact value otherwise. -/
def atoiVal (str : String) : Int :=
  let (neg, ds) := stripSign str.toList
  if !ds.isEmpty && ds.all Char.isDigit then
    let n : Nat := ds.foldl (fun acc c => acc * 10 + (c.toNat - '0'.toNat)) 0
    let cutoff : Nat := 2 ^ 63
    if !neg && n ≥ cutoff then ((cutoff - 1 : Nat) : Int)
    else if neg && n > cutoff then -(cutoff : Int)
    else if neg then -(n : Int)
    else (n : Int)
  else 0

/-- Go `GConfig.GetInt` (`strconv.Atoi` with the error discarded). -/
def GConfig.GetInt (c : GConfig) (env : String → Option String)
    (key : String) : Option Int :=
  (c.getStringValue env key).map atoiVal

/-- `strconv.ParseBool`: accepts exactly the twelve literals. -/
def parseBoolVal (str : String) : Option Bool :=
  if str = "1" || str = "t" || str = "T" || str = "true" || str = "TRUE" || str = "True" then
    some true
  else if str = "0" || str = "f" || str = "F" || str = "false" || str = "FALSE" || str = "False" then
    some false
  else none

/-- Go `GConfig.GetBool` (`strconv.ParseBool` with the error discarded: a parse
failure leaves the zero value `false`). -/
def GConfig.GetBool (c : GConfig) (env : String → Option String)
    (key : String) : Option Bool :=
  (c.getStringValue env key).map (fun v => (parseBoolVal v).getD false)

/-- Go `lower` from strconv (only compared against lowercase letters, for which
`Char.toLower` agrees with `c | 0x20`). -/
def lowCh (c : Char) : Char := c.toLower

/-- Hex-digit letters a-f (after lowering), as in `strconv.readFloat`. -/
def isHexDigitLetter (c : Char) : Bool :=
  decide ('a' ≤ lowCh c) && decide (lowCh c ≤ 'f')

/-- The mantissa loop of `strconv.readFloat`: consume underscores, at most one
dot, and digits (hex digits when `hex`); return whether any digit was seen and
the unconsumed remainder. -/
def mantissaScan (hex : Bool) : List Char → Bool → Bool → Bool × List Char
  | [], _, sawdigits => (sawdigits, [])
  | c :: rest, sawdot, sawdigits =>
    if c = '_' then mantissaScan hex rest sawdot sawdigits
    else if c = '.' then
      if sawdot then (sawdigits, c :: rest)
      else mantissaScan hex rest true sawdigits
    else if c.isDigit then mantissaScan hex rest sawdot true
    else if hex && isHexDigitLetter c then mantissaScan hex rest sawdot true
    else (sawdigits, c :: rest)

/-- Exponent digit loop of `strconv.readFloat`: the remainder is fully consumed
iff it is all digits and underscores. -/
def expDigits : List Char → Bool
  | [] => true
  | c :: rest => (c == '_' || c.isDigit) && expDigits rest

/-- The exponent part after the `e`/`p` marker: optional sign, then a digit,
then digits/underscores to the end. -/
def expTail (cs : List Char) : Bool :=
  let cs1 := match cs with
    | '+' :: r => r
    | '-' :: r => r
    | r => r
  match cs1 with
  | [] => false
  | d :: rest => d.isDigit && expDigits rest

/-- Go `special` from strconv/atof.go restricted to a full-string match: an
optional sign is allowed only before case-insensitive inf or infinity (the
sign arm of Go's switch falls through to the inf arm alone); nan is accepted
only unsigned, so signed NaN is a syntax error. -/
def specialOk (cs : List Char) : Bool :=
  let cs1 := match cs with
    | '+' :: r => r
    | '-' :: r => r
    | r => r
  let ls := cs1.map lowCh
  ls == ['i', 'n', 'f'] || ls == ['i', 'n', 'f', 'i', 'n', 'i', 't', 'y'] ||
    cs.map lowCh == ['n', 'a', 'n']

/-- Loop of Go `underscoreOK`: `saw` is the class of the previous character
(position marker, digit, underscore, or other). -/
def underscoreOKAux (hex : Bool) : Char → List Char → Bool
  | saw, [] => !(saw == '_')
  | saw, c :: rest =>
    if c.isDigit || (hex && isHexDigitLetter c) then underscoreOKAux hex '0' rest
    else if c = '_' then (saw == '0') && underscoreOKAux hex '_' rest
    else if saw == '_' then false
    else underscoreOKAux hex '!' rest

/-- Go `underscoreOK` from strconv/atoi.go: underscores may appear only between
digits (the base prefix counting as a digit). -/
def underscoreOK (cs : List Char) : Bool :=
  let cs1 := match cs with
    | '+' :: r => r
    | '-' :: r => r
    | r => r
  match cs1 with
  | '0' :: b :: rest =>
    if lowCh b == 'b' || lowCh b == 'o' || lowCh b == 'x' then
      underscoreOKAux (lowCh b == 'x') '0' rest
    else underscoreOKAux false '^' cs1
  | _ => underscoreOKAux false '^' cs1

/-- The set of strings `strconv.ParseFloat` accepts (returns without error or
with only a range error): specials, or sign, optional hex prefix, mantissa with
digits, and a complete exponent (mandatory for hex), with valid underscore
placement; the whole string must be consumed. -/
def floatSyntaxOk (str : String) : Bool :=
  let cs := str.toList
  if specialOk cs then true
  else
    let cs1 := match cs with
      | '+' :: r => r
      | '-' :: r => r
      | r => r
    let (hex, body) := match cs1 with
      | '0' :: x :: rest => if lowCh x == 'x' then (true, rest) else (false, cs1)
      | _ => (false, cs1)
    let (sawdig, rem) := mantissaScan hex body false false
    let expOk := match rem with
      | [] => !hex
      | e :: tail => lowCh e == (if hex then 'p' else 'e') && expTail tail
    sawdig && expOk && (!(cs.contains '_') || underscoreOK cs)

/-- Result of `strconv.ParseFloat(s, 32)` as used by `GetFloat`: `zero` models
the 0.0 produced on a syntax error, `parsed lit` abstracts the float value of an
accepted literal (the numeric conversion itself is not modelled). -/
inductive FloatVal where
  | zero : FloatVal
  | parsed (lit : String) : FloatVal
  deriving DecidableEq, Repr

/-- Go `GConfig.GetFloat` (`strconv.ParseFloat(s, 32)` with the error
discarded). -/
def GConfig.GetFloat (c : GConfig) (env : String → Option String)
    (key : String) : Option FloatVal :=
  (c.getStringValue env key).map
    (fun v => if floatSyntaxOk v then FloatVal.parsed v else FloatVal.zero)

/-! ## Property-file parsing -/

/-- Go `strings.Split(l, eqSign)`: split at every equals sign. -/
def splitOnEq : List Char → List (List Char)
  | [] => [[]]
  | c :: rest =>
    if c = '=' then [] :: splitOnEq rest
    else
      match splitOnEq rest with
      | [] => [[c]]
      | p :: ps => (c :: p) :: ps

/-- One iteration of the scanner loop in `readPropertyFile`: a line splitting
into exactly two parts is added, every other line is ignored. -/
def parseLine (cf : ConfigFile) (l : String) : ConfigFile :=
  match splitOnEq l.toList with
  | [k, v] => cf.addProperty (String.mk k) (String.mk v)
  | _ => cf

/-- Go `readPropertyFile` on an already-opened file, the scanner's lines given
as a list. -/
def readPropertyFile (name : String) (lines : List String) : ConfigFile :=
  lines.foldl parseLine { fileInfo := some name, configs := [] }

/-! ## Load -/

/-- Go `(*GConfig).addConfigFile`. -/
def GConfig.addConfigFile (c : GConfig) (cf : ConfigFile) : GConfig :=
  if cf.isDefault then { c with defaultConfig := cf } else { c with profileConfig := cf }

/-- One entry of the configuration directory: its name, and its scanned lines
(`none` when `os.Open` fails on it). -/
structure DirEntry where
  name : String
  content : Option (List String)
  deriving DecidableEq, Repr

/-- The error cases `Load` can surface (each wrapped by `configError` in Go):
`ioutil.ReadDir` failure, `ErrConfigFileRequired` for an empty directory, and an
`os.Open` failure on a matched file. -/
inductive LoadErr where
  | dirReadErr : LoadErr
  | configFileRequired : LoadErr
  | openErr (fname : String) : LoadErr
  deriving DecidableEq, Repr

/-- What `Load` leaves behind: the returned store, the returned error, and the
value of the `Gcg` singleton after the call. -/
structure LoadResult where
  ret : GConfig
  err : Option LoadErr
  gcg : Option GConfig
  deriving DecidableEq, Repr

/-- `new(GConfig)`: the zero value returned by `configError` alongside every
error. -/
def zeroGConfig : GConfig :=
  { Profile := ""
    profileConfig := { fileInfo := none, configs := [] }
    defaultConfig := { fileInfo := none, configs := [] } }

/-- The profile file name `application-<profile>.properties` computed in the
load loop. -/
def profileFileName (p : String) : String :=
  "application-" ++ p ++ ".properties"

/-- The `for _, f := range files` loop of `Load`: parse each file matching the
standard or the profile name, aborting with the file name when it cannot be
opened. -/
def loadLoop (profile : String) : GConfig → List DirEntry → Except String GConfig
  | gc, [] => Except.ok gc
  | gc, f :: rest =>
    if f.name = StandardPropFileName || profileFileName profile = f.name then
      match f.content with
      | none => Except.error f.name
      | some lines => loadLoop profile (gc.addConfigFile (readPropertyFile f.name lines)) rest
    else loadLoop profile gc rest

/-- Go `Load`, over the effective profile (the result of `loadProfile`), the
directory listing, and the pre-call singleton.  Every error path returns
`new(GConfig)` via `configError` and leaves the singleton untouched; only the
success path assigns `Gcg`. -/
def Load (profile : String) (dir : Option (List DirEntry))
    (gcg0 : Option GConfig) : LoadResult :=
  match dir with
  | none => { ret := zeroGConfig, err := some LoadErr.dirReadErr, gcg := gcg0 }
  | some files =>
    if files.length = 0 then
      { ret := zeroGConfig, err := some LoadErr.configFileRequired, gcg := gcg0 }
    else
      match loadLoop profile
          { Profile := profile
            profileConfig := { fileInfo := none, configs := [] }
            defaultConfig := { fileInfo := none, configs := [] } } files with
      | Except.error fname =>
        { ret := zeroGConfig, err := some (LoadErr.openErr fname), gcg := gcg0 }
      | Except.ok gc => { ret := gc, err := none, gcg := some gc }

/-! ## Auxiliary predicates and the segment view of expandable values -/

/-- The head of the list, if any, fails `p`. -/
def headNot (p : Char → Bool) : List Char → Bool
  | [] => true
  | c :: _ => !(p c)

/-- Every character is a space. -/
def allSpace (cs : List Char) : Bool := cs.all (fun c => c == ' ')

/-- Neither the first nor the last character is a space. -/
def noEdgeSpace (cs : List Char) : Bool :=
  headNot (fun c => c == ' ') cs && headNot (fun c => c == ' ') cs.reverse

/-- A decomposition of a string into expansion segments: literal text, a braced
placeholder reference, or an unbraced one. -/
inductive Seg where
  | lit (s : List Char) : Seg
  | braced (n : List Char) : Seg
  | plain (n : List Char) : Seg
  deriving DecidableEq, Repr

/-- The characters a segment denotes in the source string. -/
def renderSeg : Seg → List Char
  | Seg.lit s => s
  | Seg.braced n => '$' :: '{' :: (n ++ ['}'])
  | Seg.plain n => '$' :: n

/-- Concatenation of a list of character lists. -/
def catLists : List (List Char) → List Char
  | [] => []
  | l :: ls => l ++ catLists ls

/-- The source string a segment list denotes. -/
def renderSegs (segs : List Seg) : List Char :=
  catLists (segs.map renderSeg)

/-- What one segment expands to: literal text stays, a placeholder is replaced
by the referenced environment value, an unset variable by the empty string. -/
def expandSeg (env : String → Option String) : Seg → List Char
  | Seg.lit s => s
  | Seg.braced n => envL env n
  | Seg.plain n => envL env n

/-- Well-formedness of a segment list: literals carry no dollar sign, braced
names are nonempty and brace-free, unbraced names are nonempty alphanumeric
runs not starting with a shell special character and not immediately followed
by an alphanumeric character. -/
def segsWF : List Seg → Bool
  | [] => true
  | Seg.lit s :: rest => s.all (fun c => c != '$') && segsWF rest
  | Seg.braced n :: rest => !n.isEmpty && n.all (fun c => c != '}') && segsWF rest
  | Seg.plain n :: rest =>
    (match n with
     | [] => false
     | d :: _ => !isShellSpecialVar d) &&
      n.all isAlphaNum && headNot isAlphaNum (renderSegs rest) && segsWF rest

/-! ## Concrete instances used by witnesses -/

/-- Environment with no variables set. -/
def noEnv : String → Option String := fun _ => none

/-- A store whose default layer holds `k` and `only`, with a dev profile layer
overriding `k`. -/
def cW1 : GConfig :=
  { Profile := "dev"
    profileConfig :=
      { fileInfo := some "application-dev.properties", configs := [("k", "p")] }
    defaultConfig :=
      { fileInfo := some "application.properties", configs := [("k", "d"), ("only", "x")] } }

/-- A store with both layers entirely empty. -/
def cW2 : GConfig :=
  { Profile := ""
    profileConfig := { fileInfo := none, configs := [] }
    defaultConfig := { fileInfo := none, configs := [] } }

/-- A default-only store whose key `k` resolves to an unparseable value. -/
def cW4 : GConfig :=
  { Profile := ""
    profileConfig := { fileInfo := none, configs := [] }
    defaultConfig := { fileInfo := some "application.properties", configs := [("k", "abc")] } }

/-- A default-only store with a key whose stored value is the empty string. -/
def cW7 : GConfig :=
  { Profile := ""
    profileConfig := { fileInfo := none, configs := [] }
    defaultConfig := { fileInfo := some "application.properties", configs := [("e", "")] } }

/-- A directory whose only (matching) file cannot be opened. -/
def dirW9 : List DirEntry := [{ name := "application.properties", content := none }]

/-- Environment setting only `CAPI_API_KEY`. -/
def envW6 : String → Option String :=
  fun s => if s = "CAPI_API_KEY" then some "CAPIAPI" else none

/-- A default-only store with a placeholder-wrapped value and a plain value. -/
def cW6 : GConfig :=
  { Profile := ""
    profileConfig := { fileInfo := none, configs := [] }
    defaultConfig :=
      { fileInfo := some "application.properties"
        configs := [("k", "${CAPI_API_KEY}"), ("p", "hello")] } }

/-- Environment setting only `A` (so `B` is unset). -/
def envW10 : String → Option String :=
  fun s => if s = "A" then some "x" else none

/-- Segments denoting the source text of a braced reference, a literal dash,
and an unbraced reference. -/
def segsW10 : List Seg := [Seg.braced ['A'], Seg.lit ['-'], Seg.plain ['B']]

/-- A default-only store with a fully wrapped two-placeholder value under `k`
and a merely-containing (not wrapped) value under `u`. -/
def cW10 : GConfig :=
  { Profile := ""
    profileConfig := { fileInfo := none, configs := [] }
    defaultConfig :=
      { fileInfo := some "application.properties"
        configs := [("k", "${A}-${B}"), ("u", "x${A}y")] } }

/-! ## Theorems -/

/-- C1: for a key present in both layers, `getValue` resolves to the profile
layer's value exactly when the profile layer is present and its origin file name
contains the active profile as a substring (`profileActive`), and to the default
layer's value otherwise; for a key the profile layer lacks (present only in the
default layer) it resolves to the default layer's value whatever the profile
state.  `GetString` and all typed getters read through this resolution. -/
theorem C1_layer_precedence (c : GConfig) (key : String) :
    (∀ dv pv, mapGet c.defaultConfig.configs key = some dv →
        mapGet c.profileConfig.configs key = some pv →
        c.getValue key = some (if c.profileActive then pv else dv)) ∧
    (∀ dv, mapGet c.defaultConfig.configs key = some dv →
        mapGet c.profileConfig.configs key = none →
        c.getValue key = some dv) := by
  constructor
  · intro dv pv hd hp
    cases h : c.profileActive <;> simp [GConfig.getValue, hd, hp, h]
  · intro dv hd hp
    cases h : c.profileActive <;> simp [GConfig.getValue, hd, hp, h]

theorem C1_witness :
    cW1.getValue "k" = some (if cW1.profileActive then "p" else "d") ∧
    cW1.getValue "only" = some "x" :=
  ⟨(C1_layer_precedence cW1 "k").1 "d" "p" (by decide) (by decide),
   (C1_layer_precedence cW1 "only").2 "x" (by decide) (by decide)⟩

/-- C2 (code bug): on a key absent from both layers, `getValue` yields the nil
interface and the unchecked type assertion `v.(string)` in `getStringValue`
panics at run time — modelled here as `none` — instead of the empty string the
specification promises; the typed-lookup interface is not total. -/
theorem C2_absent_key_panics :
    GConfig.GetString
      { Profile := ""
        profileConfig := { fileInfo := none, configs := [] }
        defaultConfig := { fileInfo := none, configs := [] } }
      noEnv "missing" = none := rfl

/-- C7: `Exists` is true exactly when the raw resolved value (`getValue`, before
any environment expansion) is present; in particular it is true for a key stored
in the default layer with the empty string as value, and false for a key absent
from both layers. -/
theorem C7_exists_presence (c : GConfig) (key : String) :
    (GConfig.Exists c key = true ↔ c.getValue key ≠ none) ∧
    (mapGet c.defaultConfig.configs key = some "" → GConfig.Exists c key = true) ∧
    (mapGet c.defaultConfig.configs key = none →
        mapGet c.profileConfig.configs key = none →
        GConfig.Exists c key = false) := by
  refine ⟨?_, ?_, ?_⟩
  · cases h : c.getValue key <;> simp [GConfig.Exists, h]
  · intro hd
    cases hp : mapGet c.profileConfig.configs key <;>
      cases h : c.profileActive <;>
        simp [GConfig.Exists, GConfig.getValue, hd, hp, h]
  · intro hd hp
    cases h : c.profileActive <;>
      simp [GConfig.Exists, GConfig.getValue, hd, hp, h]

theorem C7_witness :
    GConfig.Exists cW7 "e" = true ∧ GConfig.Exists cW7 "nope" = false :=
  ⟨(C7_exists_presence cW7 "e").2.1 (by decide),
   (C7_exists_presence cW7 "nope").2.2 (by decide) (by decide)⟩

/-- C8: a directory that lists successfully but contains zero entries makes
`Load` fail with the wrapped `ErrConfigFileRequired`, surfaced to the caller. -/
theorem C8_empty_dir_error (profile : String) (g0 : Option GConfig) :
    (Load profile (some []) g0).err = some LoadErr.configFileRequired := rfl

/-- C9: every error return of `Load` (unreadable directory, empty directory, or
a matched file failing to open mid-loop) commits nothing: the returned store is
the zero `GConfig` with no entries in either layer, and the `Gcg` singleton
holds its pre-call value. -/
theorem C9_error_atomicity (profile : String) (dir : Option (List DirEntry))
    (g0 : Option GConfig) (e : LoadErr)
    (h : (Load profile dir g0).err = some e) :
    (Load profile dir g0).ret = zeroGConfig ∧
    (Load profile dir g0).ret.defaultConfig.configs = [] ∧
    (Load profile dir g0).ret.profileConfig.configs = [] ∧
    (Load profile dir g0).gcg = g0 := by
  cases dir with
  | none => exact ⟨rfl, rfl, rfl, rfl⟩
  | some files =>
    by_cases hlen : files.length = 0
    · simp [Load, hlen, zeroGConfig]
    · cases hl : loadLoop profile
          { Profile := profile
            profileConfig := { fileInfo := none, configs := [] }
            defaultConfig := { fileInfo := none, configs := [] } } files with
      | error fname => simp [Load, hlen, hl, zeroGConfig]
      | ok gc => simp [Load, hlen, hl] at h

theorem C9_witness :
    (Load "dev" (some dirW9) none).ret = zeroGConfig ∧
    (Load "dev" (some dirW9) none).ret.defaultConfig.configs = [] ∧
    (Load "dev" (some dirW9) none).ret.profileConfig.configs = [] ∧
    (Load "dev" (some dirW9) none).gcg = none :=
  C9_error_atomicity "dev" (some dirW9) none
    (LoadErr.openErr "application.properties") (by decide)

/-! ## Splitting lemmas for the line parser -/

theorem splitOnEq_ne_nil (l : List Char) : splitOnEq l ≠ [] := by
  cases l with
  | nil => simp [splitOnEq]
  | cons c rest =>
    by_cases h : c = '='
    · simp [splitOnEq, h]
    · cases hr : splitOnEq rest <;> simp [splitOnEq, h, hr]

theorem splitOnEq_no_eq (a : List Char) (h : '=' ∉ a) : splitOnEq a = [a] := by
  induction a with
  | nil => rfl
  | cons c rest ih =>
    have hc : ¬(c = '=') := fun hc => h (hc ▸ List.mem_cons_self c rest)
    have hr : splitOnEq rest = [rest] := ih (fun hm => h (List.mem_cons_of_mem c hm))
    simp [splitOnEq, hc, hr]

theorem splitOnEq_append (a b : List Char) (h : '=' ∉ a) :
    splitOnEq (a ++ '=' :: b) = a :: splitOnEq b := by
  induction a with
  | nil => simp [splitOnEq]
  | cons c rest ih =>
    have hc : ¬(c = '=') := fun hc => h (hc ▸ List.mem_cons_self c rest)
    have hr := ih (fun hm => h (List.mem_cons_of_mem c hm))
    simp [splitOnEq, hc, hr]

theorem splitOnEq_length (l : List Char) : (splitOnEq l).length = l.count '=' + 1 := by
  induction l with
  | nil => rfl
  | cons c rest ih =>
    by_cases h : c = '='
    · subst h
      simp [splitOnEq, List.count_cons, ih]
    · cases hr : splitOnEq rest with
      | nil => exact absurd hr (splitOnEq_ne_nil rest)
      | cons p ps =>
        rw [hr] at ih
        simp [splitOnEq, h, hr, List.count_cons, ih.symm]

/-- C3 (amended): the parser splits a line at the equals signs and keeps exactly
the lines with a single `=`: for such a line the key is the text before the `=`
and the value the text after it; a line whose `=`-count differs from one (none,
or two and more) is silently discarded. -/
theorem C3_single_delim_split :
    (∀ (cf : ConfigFile) (l : String) (a b : List Char),
        l.toList = a ++ '=' :: b → '=' ∉ a → '=' ∉ b →
        parseLine cf l = cf.addProperty (String.mk a) (String.mk b)) ∧
    (∀ (cf : ConfigFile) (l : String), l.toList.count '=' ≠ 1 → parseLine cf l = cf) := by
  constructor
  · intro cf l a b hl ha hb
    unfold parseLine
    rw [hl, splitOnEq_append a b ha, splitOnEq_no_eq b hb]
  · intro cf l h
    have hlen : (splitOnEq l.toList).length ≠ 2 := by
      rw [splitOnEq_length]; omega
    unfold parseLine
    rcases hs : splitOnEq l.toList with _ | ⟨x, _ | ⟨y, _ | ⟨z, t⟩⟩⟩ <;>
      first
        | rfl
        | (exact absurd (by rw [hs]; rfl) hlen)

/-- C3 counterexample: the line `a=b=c` has two `=` signs, splits into three
parts, and is discarded entirely — the claimed entry with key `a` and value
`b=c` does not exist (the parsed layer is empty). -/
theorem C3_counterexample :
    (readPropertyFile "application.properties" ["a=b=c"]).configs = [] := rfl

theorem C3_witness :
    parseLine { fileInfo := some "application.properties", configs := [] } "x=y" =
      ConfigFile.addProperty { fileInfo := some "application.properties", configs := [] }
        (String.mk ['x']) (String.mk ['y']) ∧
    parseLine { fileInfo := some "application.properties", configs := [] } "a=b=c" =
      { fileInfo := some "application.properties", configs := [] } :=
  ⟨C3_single_delim_split.1 _ "x=y" ['x'] ['y'] (by decide) (by decide) (by decide),
   C3_single_delim_split.2 _ "a=b=c" (by decide)⟩

/-! ## Trimming lemmas -/

theorem dropWhile_all_nil (p : Char → Bool) (b : List Char) (h : b.all p = true) :
    b.dropWhile p = [] := by
  induction b with
  | nil => rfl
  | cons c t ih =>
    simp only [List.all_cons, Bool.and_eq_true] at h
    simp [List.dropWhile, h.1, ih h.2]

theorem dropWhile_append_all (p : Char → Bool) (a cs : List Char) (h : a.all p = true) :
    (a ++ cs).dropWhile p = cs.dropWhile p := by
  induction a with
  | nil => rfl
  | cons c t ih =>
    simp only [List.all_cons, Bool.and_eq_true] at h
    simp [List.dropWhile, h.1, ih h.2]

theorem headNot_dropWhile (p : Char → Bool) (l : List Char) :
    headNot p (l.dropWhile p) = true := by
  induction l with
  | nil => rfl
  | cons c t ih =>
    rw [List.dropWhile_cons]
    by_cases h : p c
    · rw [if_pos h]
      exact ih
    · rw [if_neg h]
      simp [headNot, h]

theorem dropWhile_append_cases (p : Char → Bool) (cs b : List Char) :
    (cs ++ b).dropWhile p =
      (if (cs.dropWhile p).isEmpty then b.dropWhile p else cs.dropWhile p ++ b) := by
  induction cs with
  | nil => simp
  | cons c t ih =>
    by_cases h : p c <;> simp [List.dropWhile, h, ih]

theorem all_reverse_char (p : Char → Bool) (l : List Char) :
    l.reverse.all p = l.all p := by
  simp [List.all_eq_true, List.mem_reverse]

theorem dropWhile_suffix_exists (p : Char → Bool) (l : List Char) :
    ∃ t, t ++ l.dropWhile p = l := by
  induction l with
  | nil => exact ⟨[], rfl⟩
  | cons c t ih =>
    by_cases h : p c
    · obtain ⟨u, hu⟩ := ih
      exact ⟨c :: u, by simp [List.dropWhile, h, hu]⟩
    · exact ⟨[], by simp [List.dropWhile, h]⟩

theorem trimSpL_pad (a b cs : List Char) (ha : allSpace a = true) (hb : allSpace b = true) :
    trimSpL (a ++ cs ++ b) = trimSpL cs := by
  unfold trimSpL
  rw [List.append_assoc, dropWhile_append_all _ a (cs ++ b) ha,
    dropWhile_append_cases]
  by_cases h : ((cs.dropWhile (fun c => c == ' ')).isEmpty)
  · rw [if_pos h]
    have hcs : cs.dropWhile (fun c => c == ' ') = [] := by
      cases hd : cs.dropWhile (fun c => c == ' ') <;> simp [hd] at h ⊢
    rw [dropWhile_all_nil _ b hb, hcs]
  · rw [if_neg h, List.reverse_append,
      dropWhile_append_all _ b.reverse _ (by rw [all_reverse_char]; exact hb)]

theorem headNot_trim_reverse (p : Char → Bool) (A : List Char) (hA : headNot p A = true) :
    headNot p (A.reverse.dropWhile p).reverse = true := by
  obtain ⟨t, ht⟩ := dropWhile_suffix_exists p A.reverse
  have hA' : A = (A.reverse.dropWhile p).reverse ++ t.reverse := by
    have h2 := congrArg List.reverse ht
    simpa [List.reverse_append] using h2.symm
  cases hBr : (A.reverse.dropWhile p).reverse with
  | nil => rfl
  | cons hd tl =>
    rw [hBr] at hA'
    cases A with
    | nil => simp at hA'
    | cons a t0 =>
      have hhd : a = hd := by
        have := congrArg List.head? hA'
        simpa using this
      subst hhd
      simpa [headNot] using hA

theorem noEdgeSpace_trimSpL (cs : List Char) : noEdgeSpace (trimSpL cs) = true := by
  unfold noEdgeSpace trimSpL
  rw [Bool.and_eq_true, List.reverse_reverse]
  constructor
  · exact headNot_trim_reverse _ _ (headNot_dropWhile _ cs)
  · exact headNot_dropWhile _ _

theorem parseLine_trimmed (cf : ConfigFile) (l : String)
    (h : ∀ kv ∈ cf.configs, noEdgeSpace kv.1.toList = true ∧ noEdgeSpace kv.2.toList = true) :
    ∀ kv ∈ (parseLine cf l).configs,
      noEdgeSpace kv.1.toList = true ∧ noEdgeSpace kv.2.toList = true := by
  unfold parseLine
  rcases hs : splitOnEq l.toList with _ | ⟨k, _ | ⟨v, _ | _⟩⟩ <;>
    try exact h
  intro kv hkv
  simp only [ConfigFile.addProperty, mapInsert, List.mem_cons] at hkv
  rcases hkv with rfl | hkv
  · exact ⟨noEdgeSpace_trimSpL _, noEdgeSpace_trimSpL _⟩
  · exact h kv (List.mem_filter.mp hkv).1

theorem foldl_parseLine_trimmed (lines : List String) :
    ∀ (cf : ConfigFile),
      (∀ kv ∈ cf.configs, noEdgeSpace kv.1.toList = true ∧ noEdgeSpace kv.2.toList = true) →
      ∀ kv ∈ (lines.foldl parseLine cf).configs,
        noEdgeSpace kv.1.toList = true ∧ noEdgeSpace kv.2.toList = true := by
  induction lines with
  | nil => exact fun cf h => h
  | cons l ls ih =>
    intro cf h
    exact ih (parseLine cf l) (parseLine_trimmed cf l h)

theorem allSpace_no_eq (a : List Char) (h : allSpace a = true) : '=' ∉ a := by
  intro hm
  have := List.all_eq_true.mp h '=' hm
  exact absurd this (by decide)

/-- C5 (amended): every stored entry has key and value trimmed of surrounding
space characters — and only spaces: `strings.Trim(s, " ")` leaves tabs and other
whitespace in place.  Parsing `key = value` with incidental space padding is
equivalent to parsing `key=value`. -/
theorem C5_trim_spaces_only :
    (∀ (name : String) (lines : List String) (kv : String × String),
        kv ∈ (readPropertyFile name lines).configs →
        noEdgeSpace kv.1.toList = true ∧ noEdgeSpace kv.2.toList = true) ∧
    (∀ (cf : ConfigFile) (p1 p2 p3 p4 k v : List Char),
        allSpace p1 = true → allSpace p2 = true → allSpace p3 = true →
        allSpace p4 = true → '=' ∉ k → '=' ∉ v →
        parseLine cf (String.mk (p1 ++ k ++ p2 ++ '=' :: (p3 ++ v ++ p4))) =
          parseLine cf (String.mk (k ++ '=' :: v))) := by
  constructor
  · intro name lines kv hkv
    exact foldl_parseLine_trimmed lines _ (by simp) kv hkv
  · intro cf p1 p2 p3 p4 k v h1 h2 h3 h4 hk hv
    have hL : '=' ∉ p1 ++ k ++ p2 := by
      intro hm
      rcases List.mem_append.mp hm with hm | hm
      · rcases List.mem_append.mp hm with hm | hm
        · exact allSpace_no_eq p1 h1 hm
        · exact hk hm
      · exact allSpace_no_eq p2 h2 hm
    have hR : '=' ∉ p3 ++ v ++ p4 := by
      intro hm
      rcases List.mem_append.mp hm with hm | hm
      · rcases List.mem_append.mp hm with hm | hm
        · exact allSpace_no_eq p3 h3 hm
        · exact hv hm
      · exact allSpace_no_eq p4 h4 hm
    unfold parseLine
    rw [show (String.mk (p1 ++ k ++ p2 ++ '=' :: (p3 ++ v ++ p4))).toList
        = (p1 ++ k ++ p2) ++ '=' :: (p3 ++ v ++ p4) from rfl]
    rw [show (String.mk (k ++ '=' :: v)).toList = k ++ '=' :: v from rfl]
    rw [splitOnEq_append _ _ hL, splitOnEq_no_eq _ hR]
    rw [splitOnEq_append _ _ hk, splitOnEq_no_eq _ hv]
    show ConfigFile.addProperty cf (String.mk (p1 ++ k ++ p2)) (String.mk (p3 ++ v ++ p4))
      = ConfigFile.addProperty cf (String.mk k) (String.mk v)
    unfold ConfigFile.addProperty
    have hkey : trimSp (String.mk (p1 ++ k ++ p2)) = trimSp (String.mk k) := by
      unfold trimSp
      rw [show (String.mk (p1 ++ k ++ p2)).toList = p1 ++ k ++ p2 from rfl,
        show (String.mk k).toList = k from rfl, trimSpL_pad p1 p2 k h1 h2]
    have hval : trimSp (String.mk (p3 ++ v ++ p4)) = trimSp (String.mk v) := by
      unfold trimSp
      rw [show (String.mk (p3 ++ v ++ p4)).toList = p3 ++ v ++ p4 from rfl,
        show (String.mk v).toList = v from rfl, trimSpL_pad p3 p4 v h3 h4]
    rw [hkey, hval]

/-- C5 counterexample: in the line `a<TAB>=b` the claim says the tab-padded key
is stored trimmed (as `a`); the code trims only spaces, so the stored key keeps
its trailing tab and `a` is absent. -/
theorem C5_counterexample :
    mapGet (readPropertyFile "application.properties" ["a\t=b"]).configs "a" = none ∧
    mapGet (readPropertyFile "application.properties" ["a\t=b"]).configs "a\t" = some "b" := by
  exact ⟨rfl, rfl⟩

theorem C5_witness :
    (noEdgeSpace (String.toList "k") = true ∧ noEdgeSpace (String.toList "v") = true) ∧
    parseLine { fileInfo := some "application.properties", configs := [] }
        (String.mk ([' '] ++ ['k'] ++ [' '] ++ '=' :: ([' '] ++ ['v'] ++ []))) =
      parseLine { fileInfo := some "application.properties", configs := [] }
        (String.mk (['k'] ++ '=' :: ['v'])) :=
  ⟨C5_trim_spaces_only.1 "application.properties" [" k = v "] ("k", "v") (by decide),
   C5_trim_spaces_only.2 _ [' '] [' '] [' '] [] ['k'] ['v']
     (by decide) (by decide) (by decide) (by decide) (by decide) (by decide)⟩

/-- C4: when the resolved string value of a present key fails to parse as the
requested type, the typed getters silently return the zero value: `GetInt`
yields 0 on an Atoi syntax error, `GetFloat` yields 0.0 (`FloatVal.zero`) on a
ParseFloat syntax error, and `GetBool` yields false on a ParseBool failure — no
error is surfaced. -/
theorem C4_parse_failure_zero (c : GConfig) (env : String → Option String)
    (key v : String) (h : c.getStringValue env key = some v) :
    (atoiSyntaxOk v = false → c.GetInt env key = some 0) ∧
    (floatSyntaxOk v = false → c.GetFloat env key = some FloatVal.zero) ∧
    (parseBoolVal v = none → c.GetBool env key = some false) := by
  refine ⟨?_, ?_, ?_⟩
  · intro hv
    have hz : atoiVal v = 0 := by
      unfold atoiVal
      unfold atoiSyntaxOk at hv
      rcases hss : stripSign v.toList with ⟨neg, ds⟩
      rw [hss] at hv
      simp only at hv
      simp [hv]
    simp [GConfig.GetInt, h, hz]
  · intro hv
    simp [GConfig.GetFloat, h, hv]
  · intro hv
    simp [GConfig.GetBool, h, hv]

theorem C4_witness :
    GConfig.GetInt cW4 noEnv "k" = some 0 ∧
    GConfig.GetFloat cW4 noEnv "k" = some FloatVal.zero ∧
    GConfig.GetBool cW4 noEnv "k" = some false :=
  ⟨(C4_parse_failure_zero cW4 noEnv "k" "abc" (by decide)).1 (by decide),
   (C4_parse_failure_zero cW4 noEnv "k" "abc" (by decide)).2.1 (by decide),
   (C4_parse_failure_zero cW4 noEnv "k" "abc" (by decide)).2.2 (by decide)⟩

/-! ## Expansion lemmas -/

theorem expandAux_nil (env : String → Option String) (f : Nat) :
    expandAux env (f + 1) [] = [] := rfl

theorem expandAux_cons_nd (env : String → Option String) (f : Nat) (c : Char)
    (rest : List Char) (h : ¬(c = '$')) :
    expandAux env (f + 1) (c :: rest) = c :: expandAux env f rest := by
  simp [expandAux, h]

theorem spanToBrace_append (n rest : List Char) (h : n.all (fun c => c != '}') = true) :
    spanToBrace (n ++ '}' :: rest) = some (n, rest) := by
  induction n with
  | nil => simp [spanToBrace]
  | cons c t ih =>
    simp only [List.all_cons, Bool.and_eq_true, bne_iff_ne, ne_eq] at h
    simp [spanToBrace, h.1, ih h.2]

theorem expandAux_copy (env : String → Option String) (s : List Char) (g : Nat)
    (rest : List Char) (h : s.all (fun c => c != '$') = true) :
    expandAux env (s.length + g) (s ++ rest) = s ++ expandAux env g rest := by
  induction s with
  | nil => simp
  | cons c t ih =>
    simp only [List.all_cons, Bool.and_eq_true, bne_iff_ne, ne_eq] at h
    have hlen : (c :: t).length + g = (t.length + g) + 1 := by
      simp [Nat.add_right_comm]
    rw [hlen, List.cons_append, expandAux_cons_nd env _ c _ h.1,
      ih h.2]
    rfl

theorem expandAux_braced (env : String → Option String) (g : Nat) (n rest : List Char)
    (hne : n.isEmpty = false) (hnb : n.all (fun c => c != '}') = true) :
    expandAux env (g + 1) ('$' :: '{' :: (n ++ '}' :: rest)) =
      envL env n ++ expandAux env g rest := by
  simp [expandAux, spanToBrace_append n rest hnb, hne]

theorem takeWhile_append_run (p : Char → Bool) (n rest : List Char)
    (h : n.all p = true) (h2 : headNot p rest = true) :
    (n ++ rest).takeWhile p = n := by
  induction n with
  | nil =>
    cases rest with
    | nil => rfl
    | cons c t =>
      simp only [headNot, Bool.not_eq_true'] at h2
      simp [List.takeWhile_cons, h2]
  | cons c t ih =>
    simp only [List.all_cons, Bool.and_eq_true] at h
    simp [List.takeWhile_cons, h.1, ih h.2]

theorem dropWhile_append_run (p : Char → Bool) (n rest : List Char)
    (h : n.all p = true) (h2 : headNot p rest = true) :
    (n ++ rest).dropWhile p = rest := by
  induction n with
  | nil =>
    cases rest with
    | nil => rfl
    | cons c t =>
      simp only [headNot, Bool.not_eq_true'] at h2
      simp [List.dropWhile_cons, h2]
  | cons c t ih =>
    simp only [List.all_cons, Bool.and_eq_true] at h
    simp [List.dropWhile_cons, h.1, ih h.2]

theorem expandAux_plain (env : String → Option String) (g : Nat) (d : Char)
    (n rest : List Char)
    (hall : (d :: n).all isAlphaNum = true)
    (hd : isShellSpecialVar d = false)
    (hrest : headNot isAlphaNum rest = true) :
    expandAux env (g + 1) ('$' :: d :: (n ++ rest)) =
      envL env (d :: n) ++ expandAux env g rest := by
  have hdal : isAlphaNum d = true := by
    simp only [List.all_cons, Bool.and_eq_true] at hall
    exact hall.1
  have hdbrace : ¬(d = '{') := by
    intro hd2
    subst hd2
    exact absurd hdal (by decide)
  have htake : (d :: (n ++ rest)).takeWhile isAlphaNum = d :: n := by
    have h3 := takeWhile_append_run isAlphaNum (d :: n) rest hall hrest
    simpa using h3
  have hdrop : (d :: (n ++ rest)).dropWhile isAlphaNum = rest := by
    have h3 := dropWhile_append_run isAlphaNum (d :: n) rest hall hrest
    simpa using h3
  simp [expandAux, hdbrace, hd, hdal, htake, hdrop]

theorem expandAux_segs (env : String → Option String) :
    ∀ (segs : List Seg) (f : Nat), segsWF segs = true →
      (renderSegs segs).length < f →
      expandAux env f (renderSegs segs) = catLists (segs.map (expandSeg env)) := by
  intro segs
  induction segs with
  | nil =>
    intro f _ hf
    cases f with
    | zero => omega
    | succ g => simp [renderSegs, catLists, expandAux_nil]
  | cons sg rest ih =>
    intro f hwf hf
    cases sg with
    | lit s =>
      simp only [segsWF, Bool.and_eq_true] at hwf
      have hren : renderSegs (Seg.lit s :: rest) = s ++ renderSegs rest := by
        simp [renderSegs, catLists, renderSeg]
      rw [hren] at hf ⊢
      obtain ⟨g, rfl⟩ : ∃ g, f = s.length + g :=
        ⟨f - s.length, by simp only [List.length_append] at hf; omega⟩
      rw [expandAux_copy env s g _ hwf.1]
      have hg : (renderSegs rest).length < g := by
        simp only [List.length_append] at hf
        omega
      rw [ih g hwf.2 hg]
      simp [catLists, expandSeg]
    | braced n =>
      simp only [segsWF, Bool.and_eq_true] at hwf
      obtain ⟨⟨hne, hnb⟩, hrest⟩ := hwf
      have hren : renderSegs (Seg.braced n :: rest) =
          '$' :: '{' :: (n ++ '}' :: renderSegs rest) := by
        simp [renderSegs, catLists, renderSeg]
      rw [hren] at hf ⊢
      cases f with
      | zero => omega
      | succ g =>
        rw [expandAux_braced env g n _ (by simpa using hne) hnb]
        have hg : (renderSegs rest).length < g := by
          simp only [List.length_cons, List.length_append] at hf
          omega
        rw [ih g hrest hg]
        simp [catLists, expandSeg]
    | plain n =>
      cases n with
      | nil => simp [segsWF] at hwf
      | cons d t =>
        simp only [segsWF, Bool.and_eq_true] at hwf
        obtain ⟨⟨⟨hd0, hall⟩, hhead⟩, hrest⟩ := hwf
        have hd : isShellSpecialVar d = false := by
          simpa using hd0
        have hren : renderSegs (Seg.plain (d :: t) :: rest) =
            '$' :: d :: (t ++ renderSegs rest) := by
          simp [renderSegs, catLists, renderSeg]
        rw [hren] at hf ⊢
        cases f with
        | zero => omega
        | succ g =>
          rw [expandAux_plain env g d t _ hall hd hhead]
          have hg : (renderSegs rest).length < g := by
            simp only [List.length_cons, List.length_append] at hf
            omega
          rw [ih g hrest hg]
          simp [catLists, expandSeg]

/-- C6: when a present key's resolved value is syntactically wrapped as a
placeholder with one brace-free name, `GetString` replaces it by the value of
the named environment variable (the raw string is not returned); values not
wrapped this way are returned unchanged. -/
theorem C6_env_expansion :
    (∀ (c : GConfig) (env : String → Option String) (key v : String) (n : List Char),
        c.getValue key = some v →
        v.toList = '$' :: '{' :: (n ++ ['}']) →
        n.isEmpty = false → n.all (fun ch => ch != '}') = true →
        c.GetString env key = some ((env (String.mk n)).getD "")) ∧
    (∀ (c : GConfig) (env : String → Option String) (key v : String),
        c.getValue key = some v → isWrapped v = false →
        c.GetString env key = some v) := by
  constructor
  · intro c env key v n hv hshape hne hnb
    have hw : isWrapped v = true := by
      unfold isWrapped
      rw [hshape]
      simp [List.isPrefixOf, List.isSuffixOf, List.reverse_cons, List.reverse_append]
    unfold GConfig.GetString GConfig.getStringValue
    rw [hv]
    simp only [hw, if_true]
    congr 1
    unfold expandEnv expandChars
    rw [hshape]
    have hlen : ('$' :: '{' :: (n ++ ['}'])).length + 1 = (n.length + 3) + 1 := by
      simp [List.length_append]
    rw [hlen, expandAux_braced env (n.length + 3) n [] hne hnb,
      show n.length + 3 = (n.length + 2) + 1 from rfl, expandAux_nil,
      List.append_nil]
    rfl
  · intro c env key v hv hw
    simp [GConfig.GetString, GConfig.getStringValue, hv, hw]

theorem C6_witness :
    GConfig.GetString cW6 envW6 "k" =
      some ((envW6 (String.mk ['C','A','P','I','_','A','P','I','_','K','E','Y'])).getD "") ∧
    GConfig.GetString cW6 envW6 "p" = some "hello" :=
  ⟨C6_env_expansion.1 cW6 envW6 "k" "${CAPI_API_KEY}"
      ['C','A','P','I','_','A','P','I','_','K','E','Y']
      (by decide) (by decide) (by decide) (by decide),
   C6_env_expansion.2 cW6 envW6 "p" "hello" (by decide) (by decide)⟩

/-- C10: once a resolved value is wrapped (starts with the dollar-brace opener
and ends with a closing brace), `GetString` applies general shell-style
environment expansion (`os.ExpandEnv`) to the whole value: over any
well-formed segment decomposition, each braced or unbraced variable occurrence
is replaced independently by the referenced value (`expandSeg`, which
substitutes the empty string for an unset variable, never the literal
placeholder); a value that is not wrapped undergoes no expansion at all even if
it contains a placeholder. -/
theorem C10_general_expansion :
    (∀ (env : String → Option String) (segs : List Seg), segsWF segs = true →
        expandChars env (renderSegs segs) = catLists (segs.map (expandSeg env))) ∧
    (∀ (c : GConfig) (env : String → Option String) (key v : String),
        c.getValue key = some v → isWrapped v = true →
        c.GetString env key = some (expandEnv env v)) ∧
    (∀ (c : GConfig) (env : String → Option String) (key v : String),
        c.getValue key = some v → isWrapped v = false →
        c.GetString env key = some v) := by
  refine ⟨?_, ?_, ?_⟩
  · intro env segs hwf
    exact expandAux_segs env segs _ hwf (Nat.lt_succ_self _)
  · intro c env key v hv hw
    simp [GConfig.GetString, GConfig.getStringValue, hv, hw]
  · intro c env key v hv hw
    simp [GConfig.GetString, GConfig.getStringValue, hv, hw]

theorem C10_witness :
    expandChars envW10 (renderSegs segsW10) = catLists (segsW10.map (expandSeg envW10)) ∧
    GConfig.GetString cW10 envW10 "k" = some (expandEnv envW10 "${A}-${B}") ∧
    GConfig.GetString cW10 envW10 "u" = some "x${A}y" :=
  ⟨C10_general_expansion.1 envW10 segsW10 (by decide),
   C10_general_expansion.2.1 cW10 envW10 "k" "${A}-${B}" (by decide) (by decide),
   C10_general_expansion.2.2 cW10 envW10 "u" "x${A}y" (by decide) (by decide)⟩
